import Mathlib

/-!
Shallow embedding of the Mandelbrot renderer (`src/main.rs`) and proofs
about its specification.  `f64` arithmetic is modelled exactly over `ℚ`;
`usize`/`u32` are `Nat`, with wrap-around written explicitly as `% 2^32`
where the source can overflow.  Slice writes `pixels[i] = v` are modelled
as checked updates in `Option` (`none` models the out-of-bounds panic).
-/

/-- Complex numbers with exact rational components, modelling `num::Complex<f64>`. -/
structure Cplx where
  re : ℚ
  im : ℚ
deriving DecidableEq, Repr

instance : Add Cplx := ⟨fun a b => ⟨a.re + b.re, a.im + b.im⟩⟩
instance : Sub Cplx := ⟨fun a b => ⟨a.re - b.re, a.im - b.im⟩⟩
instance : Mul Cplx := ⟨fun a b => ⟨a.re * b.re - a.im * b.im, a.re * b.im + a.im * b.re⟩⟩

theorem Cplx.add_def (a b : Cplx) : a + b = ⟨a.re + b.re, a.im + b.im⟩ := rfl

theorem Cplx.sub_def (a b : Cplx) : a - b = ⟨a.re - b.re, a.im - b.im⟩ := rfl

theorem Cplx.mul_def (a b : Cplx) :
    a * b = ⟨a.re * b.re - a.im * b.im, a.re * b.im + a.im * b.re⟩ := rfl

/-- Squared magnitude, `Complex::norm_sqr` in the source. -/
def Cplx.normSq (z : Cplx) : ℚ := z.re * z.re + z.im * z.im

/-- Loop body of `escape_time`: `fuel` iterations remain, `i` is the current
iteration index, `z` the current iterate.  Each step computes `z*z + c` and
tests `norm_sqr > 4.0`. -/
def escapeGo (c : Cplx) : Nat → Nat → Cplx → Option Nat
  | 0, _, _ => none
  | fuel + 1, i, z =>
    let z' := z * z + c
    if 4 < z'.normSq then some i else escapeGo c fuel (i + 1) z'

/-- Model of `escape_time(c, limit)` from the source: iterate `z ← z² + c` from `z = 0`
for at most `limit` steps, returning `some i` at the first `i` with
`|z|² > 4`, else `none`. -/
def escape_time (c : Cplx) (limit : Nat) : Option Nat :=
  escapeGo c limit 0 ⟨0, 0⟩

/-- Model of `pixel_to_point(bounds, pixel, upper_left, lower_right)`:
linear interpolation of a `(column, row)` pixel into the view rectangle.
`bounds = (width, height)`, `pixel = (column, row)`. -/
def pixel_to_point (bounds : Nat × Nat) (pixel : Nat × Nat)
    (upper_left lower_right : Cplx) : Cplx :=
  let width := lower_right.re - upper_left.re
  let height := upper_left.im - lower_right.im
  { re := upper_left.re + (pixel.1 : ℚ) * width / (bounds.1 : ℚ)
    im := upper_left.im - (pixel.2 : ℚ) * height / (bounds.2 : ℚ) }

/-- Normalize a hue in degrees into `[0, 360)` (as the `palette` hue type does). -/
def hueNorm (h : ℚ) : ℚ := h - 360 * ⌊h / 360⌋

/-- Standard HSV → RGB conversion (the `Srgb::from(palette::Hsv)` transform):
chroma/sector formula, each channel in `[0, 1]`. -/
def hsvToRgb (h s v : ℚ) : ℚ × ℚ × ℚ :=
  let c := v * s
  let hp := hueNorm h / 60
  let x := c * (1 - |hp - 2 * ⌊hp / 2⌋ - 1|)
  let m := v - c
  let rgb : ℚ × ℚ × ℚ :=
    if hp < 1 then (c, x, 0)
    else if hp < 2 then (x, c, 0)
    else if hp < 3 then (0, c, x)
    else if hp < 4 then (0, x, c)
    else if hp < 5 then (x, 0, c)
    else (c, 0, x)
  (rgb.1 + m, rgb.2.1 + m, rgb.2.2 + m)

/-- Byte cast `(q * 255.) as u8`: scale a channel to a byte, truncating toward zero and
saturating to `[0, 255]` as Rust float-to-int casts do. -/
def toByte (q : ℚ) : Nat := min 255 (Int.toNat ⌊q * 255⌋)

/-- The `val` computed per pixel in `render`: `0` for a bounded point,
`time_limit - count` for escape at step `count`. -/
def pixelVal (limit : Nat) (p : Cplx) : Nat :=
  match escape_time p limit with
  | none => 0
  | some count => limit - count

/-- The HSV triple `render` feeds to the color conversion:
hue `360 * (val / time_limit)`, saturation `1`, value `1 * (if val == 0 then 0 else 1)`. -/
def pixelHsv (limit : Nat) (p : Cplx) : ℚ × ℚ × ℚ :=
  (360 * ((pixelVal limit p : ℚ) / (limit : ℚ)), 1,
    1 * (if pixelVal limit p = 0 then 0 else 1))

/-- The sRGB triple `render` computes for a pixel's point. -/
def pixelColor (limit : Nat) (p : Cplx) : ℚ × ℚ × ℚ :=
  hsvToRgb (pixelHsv limit p).1 (pixelHsv limit p).2.1 (pixelHsv limit p).2.2

/-- The four bytes `render` writes for one pixel: R, G, B scaled to bytes and
alpha `255`. -/
def pixelBytes (limit : Nat) (p : Cplx) : List Nat :=
  [toByte (pixelColor limit p).1, toByte (pixelColor limit p).2.1,
    toByte (pixelColor limit p).2.2, 255]

/-- A checked byte store: `pixels[i] = v`.  `none` models the out-of-bounds
panic of Rust slice indexing. -/
def writeByte (buf : List Nat) (i v : Nat) : Option (List Nat) :=
  if i < buf.length then some (buf.set i v) else none

/-- The body of `render`'s inner loop for one pixel `(column, row)`: four
checked stores at `4*(row*width + column) + 0..3`. -/
def renderPixel (limit : Nat) (bounds : Nat × Nat) (ul lr : Cplx)
    (row col : Nat) (buf : List Nat) : Option (List Nat) := do
  let point := pixel_to_point bounds (col, row) ul lr
  let base := 4 * (row * bounds.1 + col)
  let buf ← writeByte buf base (toByte (pixelColor limit point).1)
  let buf ← writeByte buf (base + 1) (toByte (pixelColor limit point).2.1)
  let buf ← writeByte buf (base + 2) (toByte (pixelColor limit point).2.2)
  writeByte buf (base + 3) 255

/-- Inner `for column in 0..bounds.0` loop of `render`, over an explicit list of
column indices. -/
def renderCols (limit : Nat) (bounds : Nat × Nat) (ul lr : Cplx) (row : Nat) :
    List Nat → List Nat → Option (List Nat)
  | [], buf => some buf
  | c :: cs, buf => do
    let buf ← renderPixel limit bounds ul lr row c buf
    renderCols limit bounds ul lr row cs buf

/-- Outer `for row in 0..bounds.1` loop of `render`, over an explicit list of
row indices. -/
def renderRows (limit : Nat) (bounds : Nat × Nat) (ul lr : Cplx) :
    List Nat → List Nat → Option (List Nat)
  | [], buf => some buf
  | r :: rs, buf => do
    let buf ← renderCols limit bounds ul lr r (List.range bounds.1) buf
    renderRows limit bounds ul lr rs buf

/-- Model of `render(time_limit, pixels, bounds, upper_left, lower_right)` from the
source: fill every pixel of `bounds` into `pixels` in row-major RGBA order.
`none` models an out-of-bounds write (a panic in the source). -/
def render (limit : Nat) (pixels : List Nat) (bounds : Nat × Nat)
    (upper_left lower_right : Cplx) : Option (List Nat) :=
  renderRows limit bounds upper_left lower_right (List.range bounds.2) pixels

/-- The bytes of one full row, generated directly (specification form). -/
def rowBytes (limit : Nat) (bounds : Nat × Nat) (ul lr : Cplx) (row : Nat) :
    List Nat :=
  (List.range bounds.1).flatMap fun col =>
    pixelBytes limit (pixel_to_point bounds (col, row) ul lr)

/-- The whole buffer, generated row by row (specification form of `render`'s
output on a fresh buffer). -/
def renderGen (limit : Nat) (bounds : Nat × Nat) (ul lr : Cplx) : List Nat :=
  (List.range bounds.2).flatMap (rowBytes limit bounds ul lr)

/-- The banded pass of `draw_image`: each row index `i` becomes one band
(`chunks_mut(4 * bounds.0)` of the zeroed buffer), rendered with bounds
`(width, 1)` and corner points recomputed through `pixel_to_point`; the
resulting bands are reassembled in order.  Disjoint parallel writes make the
source's `par_iter` equivalent to this in-order concatenation. -/
def renderBands (limit : Nat) (bounds : Nat × Nat) (ul lr : Cplx) :
    List Nat → Option (List Nat)
  | [] => some []
  | i :: is => do
    let band ← render limit (List.replicate (4 * bounds.1) 0) (bounds.1, 1)
      (pixel_to_point bounds (0, i) ul lr)
      (pixel_to_point bounds (bounds.1, i + 1) ul lr)
    let rest ← renderBands limit bounds ul lr is
    some (band ++ rest)

/-- Buffer computation of `draw_image`: allocate `vec![0; 4*w*h]`, slice it into
one band per pixel row, render every band, and return the assembled buffer
(the conversion to a `ggez` texture is outside the model). -/
def draw_image (limit : Nat) (bounds : Nat × Nat) (ul lr : Cplx) :
    Option (List Nat) :=
  renderBands limit bounds ul lr (List.range bounds.2)

/-- A view rectangle: `(upper_left, lower_right)`. -/
abbrev View := Cplx × Cplx

/-- The default view set by `State::new` and by the Space-key reset:
`upper_left = -3 + 2i`, `lower_right = 1 - 2i`. -/
def initView : View := (⟨-3, 2⟩, ⟨1, -2⟩)

/-- The `MouseButton::Right` branch of `mouse_button_up_event`:
`diag = upper_left - lower_right; upper_left += diag; lower_right -= diag`. -/
def zoomOut (v : View) : View :=
  let diag := v.1 - v.2
  (v.1 + diag, v.2 - diag)

/-- The `MouseButton::Left` branch of `mouse_button_up_event`: the new corners
are the points of the pixels `100` to each side of the click.  The click
position is a pixel coordinate; Rust's saturating `f32 → usize` cast of
`x - 100.` is `Nat` truncated subtraction. -/
def zoomIn (bounds : Nat × Nat) (px py : Nat) (v : View) : View :=
  (pixel_to_point bounds (px - 100, py - 100) v.1 v.2,
    pixel_to_point bounds (px + 100, py + 100) v.1 v.2)

/-- The viewport commands that change the view rectangle. -/
inductive VCmd where
  | reset : VCmd
  | zoomIn (px py : Nat) : VCmd
  | zoomOut : VCmd

/-- One viewport transition on the view rectangle. -/
def applyV (bounds : Nat × Nat) : VCmd → View → View
  | .reset, _ => initView
  | .zoomIn px py, v => zoomIn bounds px py v
  | .zoomOut, v => zoomOut v

/-- The view-rectangle orientation invariant:
`upper_left.re < lower_right.re` and `upper_left.im > lower_right.im`. -/
def oriented (v : View) : Prop := v.1.re < v.2.re ∧ v.2.im < v.1.im

instance (v : View) : Decidable (oriented v) := by unfold oriented; infer_instance

/-- The `KeyCode::Left` branch of `key_up_event`:
`time_limit /= if time_limit / 2 < 1 { 1 } else { 2 }`. -/
def decreaseBudget (b : Nat) : Nat :=
  b / (if b / 2 < 1 then 1 else 2)

/-- The budget commands of `key_up_event`. -/
inductive BCmd where
  | inc : BCmd
  | dec : BCmd

/-- One budget transition: `KeyCode::Right` doubles (`u32`, wrapping modulo
`2^32`), `KeyCode::Left` halves with floor `1` per `decreaseBudget`. -/
def stepBudget : BCmd → Nat → Nat
  | .inc, b => b * 2 % 2 ^ 32
  | .dec, b => decreaseBudget b

/-- The budget after a command sequence, from the initial `time_limit = 256`
of `State::new`. -/
def runBudget (cmds : List BCmd) : Nat :=
  cmds.foldl (fun b c => stepBudget c b) 256

/-- Returns `true` when no `inc` in the sequence is applied to a budget of `2^31` or
more, i.e. no `u32` doubling overflows along the run from `b`. -/
def noOverflow : Nat → List BCmd → Bool
  | _, [] => true
  | b, c :: cs =>
    (match c with
      | .inc => decide (b < 2 ^ 31)
      | .dec => true) && noOverflow (stepBudget c b) cs

/-! ### Helper lemmas -/

theorem escapeGo_mono (c : Cplx) :
    ∀ fuel fuel' i : Nat, ∀ z : Cplx, ∀ j : Nat, fuel ≤ fuel' →
      escapeGo c fuel i z = some j → escapeGo c fuel' i z = some j := by
  intro fuel
  induction fuel with
  | zero => intro fuel' i z j _ h; simp [escapeGo] at h
  | succ n ih =>
    intro fuel' i z j hle h
    obtain ⟨m, rfl⟩ : ∃ m, fuel' = m + 1 := ⟨fuel' - 1, by omega⟩
    simp only [escapeGo] at h ⊢
    by_cases hc : 4 < (z * z + c).normSq
    · simpa [hc] using h
    · simp only [hc, if_false] at h ⊢
      exact ih m (i + 1) _ j (by omega) h

theorem escapeGo_lt (c : Cplx) :
    ∀ fuel i : Nat, ∀ z : Cplx, ∀ j : Nat,
      escapeGo c fuel i z = some j → j < i + fuel := by
  intro fuel
  induction fuel with
  | zero => intro i z j h; simp [escapeGo] at h
  | succ n ih =>
    intro i z j h
    simp only [escapeGo] at h
    by_cases hc : 4 < (z * z + c).normSq
    · simp [hc] at h; omega
    · simp only [hc, if_false] at h
      have := ih (i + 1) _ j h
      omega

theorem escape_time_lt (c : Cplx) (limit j : Nat)
    (h : escape_time c limit = some j) : j < limit := by
  simpa using escapeGo_lt c limit 0 ⟨0, 0⟩ j h

theorem decreaseBudget_one_le {b : Nat} (hb : 1 ≤ b) : 1 ≤ decreaseBudget b := by
  unfold decreaseBudget; split <;> omega

theorem decreaseBudget_lt {b : Nat} (hb : 2 ≤ b) : decreaseBudget b < b := by
  unfold decreaseBudget; split <;> omega

theorem decreaseBudget_converges : ∀ b : Nat, 1 ≤ b → ∃ n, decreaseBudget^[n] b = 1 := by
  intro b
  induction b using Nat.strong_induction_on with
  | _ b ih =>
    intro hb
    rcases Nat.lt_or_ge b 2 with h | h
    · exact ⟨0, by simp; omega⟩
    · obtain ⟨n, hn⟩ := ih _ (decreaseBudget_lt h) (decreaseBudget_one_le (by omega))
      exact ⟨n + 1, by rw [Function.iterate_succ_apply]; exact hn⟩

/-! ### C2: ZoomOut -/

/-- C2 (counterexample): at the initial view, ZoomOut makes the width `12`,
not twice the old width `8`; the extent is not doubled. -/
theorem zoomOut_not_double :
    ¬ ((zoomOut initView).2.re - (zoomOut initView).1.re
        = 2 * (initView.2.re - initView.1.re)) := by
  norm_num [zoomOut, initView, Cplx.add_def, Cplx.sub_def]

/-- C2 (amended): ZoomOut sets `upper_left := upper_left + diag` and
`lower_right := lower_right - diag` with `diag = upper_left - lower_right`,
and this *triples* the visible extent (width and height each become exactly
three times their previous value) symmetrically about the current center. -/
theorem zoomOut_triples (v : View) :
    (zoomOut v).1 = v.1 + (v.1 - v.2) ∧
    (zoomOut v).2 = v.2 - (v.1 - v.2) ∧
    (zoomOut v).2.re - (zoomOut v).1.re = 3 * (v.2.re - v.1.re) ∧
    (zoomOut v).1.im - (zoomOut v).2.im = 3 * (v.1.im - v.2.im) ∧
    (zoomOut v).1.re + (zoomOut v).2.re = v.1.re + v.2.re ∧
    (zoomOut v).1.im + (zoomOut v).2.im = v.1.im + v.2.im := by
  refine ⟨rfl, rfl, ?_, ?_, ?_, ?_⟩ <;>
    simp [zoomOut, Cplx.add_def, Cplx.sub_def] <;> ring

/-! ### C4: monotonicity of the escape limit -/

/-- C4: if the escape-time evaluator escapes at step `i` under limit `L`,
it still escapes (at the same step) under any larger limit `L'`. -/
theorem escape_time_mono (c : Cplx) (L Lbig i : Nat) (_hL : 1 ≤ L)
    (hle : L ≤ Lbig) (h : escape_time c L = some i) :
    escape_time c Lbig = some i :=
  escapeGo_mono c L Lbig 0 ⟨0, 0⟩ i hle h

/-- C4 (witness): `c = 3` escapes at step 0 with limit 1, hence with limit 2. -/
theorem escape_time_mono_witness :
    1 ≤ 1 ∧ 1 ≤ 2 ∧ escape_time ⟨3, 0⟩ 2 = some 0 :=
  ⟨by norm_num, by norm_num,
    escape_time_mono ⟨3, 0⟩ 1 2 0 (by norm_num) (by norm_num)
      (by norm_num [escape_time, escapeGo, Cplx.normSq, Cplx.mul_def, Cplx.add_def])⟩

/-! ### C6: DecreaseBudget -/

/-- C6: for budgets `b ≥ 1` the Left-key transition computes `max 1 (b / 2)`;
iterating it keeps the budget `≥ 1` forever and eventually reaches and stays
at `1`. -/
theorem decreaseBudget_spec (b : Nat) (hb : 1 ≤ b) :
    decreaseBudget b = max 1 (b / 2) ∧
    (∀ m, 1 ≤ decreaseBudget^[m] b) ∧
    ∃ n, ∀ m, n ≤ m → decreaseBudget^[m] b = 1 := by
  refine ⟨by unfold decreaseBudget; split <;> omega, ?_, ?_⟩
  · intro m
    induction m with
    | zero => simpa
    | succ n ih =>
      rw [Function.iterate_succ_apply']
      exact decreaseBudget_one_le ih
  · obtain ⟨n, hn⟩ := decreaseBudget_converges b hb
    refine ⟨n, fun m hm => ?_⟩
    obtain ⟨k, rfl⟩ := Nat.exists_eq_add_of_le hm
    rw [Nat.add_comm, Function.iterate_add_apply, hn]
    exact Function.iterate_fixed (by decide) k

/-- C6 (witness): the specification instantiated at budget `5`. -/
theorem decreaseBudget_spec_witness :
    1 ≤ 5 ∧ (decreaseBudget 5 = max 1 (5 / 2) ∧
      (∀ m, 1 ≤ decreaseBudget^[m] 5) ∧
      ∃ n, ∀ m, n ≤ m → decreaseBudget^[m] 5 = 1) :=
  ⟨by norm_num, decreaseBudget_spec 5 (by norm_num)⟩

/-! ### C7: positivity of the budget -/

/-- C7 (counterexample): 24 consecutive doublings from the initial budget 256
wrap a `u32` to `0`, so the budget is not `≥ 1` in every reachable state. -/
theorem runBudget_overflow_cex :
    ¬ (1 ≤ runBudget (List.replicate 24 BCmd.inc)) := by decide

theorem budget_pos_aux : ∀ (cmds : List BCmd) (b : Nat), 1 ≤ b →
    noOverflow b cmds = true →
    1 ≤ cmds.foldl (fun b c => stepBudget c b) b := by
  intro cmds
  induction cmds with
  | nil => intro b hb _; simpa
  | cons c cs ih =>
    intro b hb hok
    simp only [noOverflow, Bool.and_eq_true] at hok
    obtain ⟨h1, h2⟩ := hok
    have hstep : 1 ≤ stepBudget c b := by
      cases c with
      | inc =>
        simp only [stepBudget]
        have hlt : b < 2 ^ 31 := by
          have := h1; simp only [decide_eq_true_eq] at this; exact this
        rw [Nat.mod_eq_of_lt (by omega)]
        omega
      | dec => exact decreaseBudget_one_le hb
    simpa using ih (stepBudget c b) hstep h2

/-- C7 (amended): starting from 256, the budget stays `≥ 1` after any sequence
of doublings and halvings in which no doubling overflows `u32` (every `inc`
is applied to a budget `< 2^31`); with wrapping allowed the invariant fails
(see the counterexample). -/
theorem runBudget_pos (cmds : List BCmd) (h : noOverflow 256 cmds = true) :
    1 ≤ runBudget cmds :=
  budget_pos_aux cmds 256 (by norm_num) h

/-- C7 (witness): a concrete overflow-free command sequence keeps the budget
positive. -/
theorem runBudget_pos_witness :
    noOverflow 256 [BCmd.inc, BCmd.dec, BCmd.dec] = true ∧
    1 ≤ runBudget [BCmd.inc, BCmd.dec, BCmd.dec] :=
  ⟨by decide, runBudget_pos [BCmd.inc, BCmd.dec, BCmd.dec] (by decide)⟩

/-! ### C3: corner exactness of the coordinate mapper -/

/-- C3: for valid bounds and a correctly oriented view, pixel `(0,0)` maps
exactly to `upper_left` and pixel `(width, height)` exactly to `lower_right`. -/
theorem pixel_to_point_corners (bounds : Nat × Nat) (ul lr : Cplx)
    (hW : 1 ≤ bounds.1) (hH : 1 ≤ bounds.2) (hor : oriented (ul, lr)) :
    pixel_to_point bounds (0, 0) ul lr = ul ∧
    pixel_to_point bounds (bounds.1, bounds.2) ul lr = lr := by
  have hW' : (bounds.1 : ℚ) ≠ 0 := Nat.cast_ne_zero.mpr (by omega)
  have hH' : (bounds.2 : ℚ) ≠ 0 := Nat.cast_ne_zero.mpr (by omega)
  constructor
  · simp [pixel_to_point]
  · obtain ⟨lre, lim⟩ := lr
    simp only [pixel_to_point, Cplx.mk.injEq]
    constructor <;> field_simp

/-- C3 (witness): corner exactness at a 2×2 image over the default view. -/
theorem pixel_to_point_corners_witness :
    pixel_to_point (2, 2) (0, 0) ⟨-3, 2⟩ ⟨1, -2⟩ = ⟨-3, 2⟩ ∧
    pixel_to_point (2, 2) (2, 2) ⟨-3, 2⟩ ⟨1, -2⟩ = ⟨1, -2⟩ :=
  pixel_to_point_corners (2, 2) ⟨-3, 2⟩ ⟨1, -2⟩ (by norm_num) (by norm_num)
    (by norm_num [oriented])

/-! ### C8: orientation invariant of the view rectangle -/

/-- C8: the orientation invariant holds in the initial state and is preserved
by Reset, ZoomIn at any pixel, and ZoomOut (for positive pixel bounds). -/
theorem oriented_invariant (bounds : Nat × Nat) (cmd : VCmd) (v : View)
    (hW : 1 ≤ bounds.1) (hH : 1 ≤ bounds.2) (h : oriented v) :
    oriented initView ∧ oriented (applyV bounds cmd v) := by
  refine ⟨by norm_num [oriented, initView], ?_⟩
  obtain ⟨h1, h2⟩ := h
  cases cmd with
  | reset => norm_num [applyV, oriented, initView]
  | zoomOut =>
    constructor <;>
      · simp only [applyV, zoomOut, Cplx.add_def, Cplx.sub_def]
        linarith
  | zoomIn px py =>
    have hWQ : (0 : ℚ) < (bounds.1 : ℚ) := by exact_mod_cast (by omega : 0 < bounds.1)
    have hHQ : (0 : ℚ) < (bounds.2 : ℚ) := by exact_mod_cast (by omega : 0 < bounds.2)
    have hxc : ((px - 100 : Nat) : ℚ) < ((px + 100 : Nat) : ℚ) := by
      exact_mod_cast (by omega : px - 100 < px + 100)
    have hyc : ((py - 100 : Nat) : ℚ) < ((py + 100 : Nat) : ℚ) := by
      exact_mod_cast (by omega : py - 100 < py + 100)
    have hw : (0 : ℚ) < v.2.re - v.1.re := by linarith
    have hh : (0 : ℚ) < v.1.im - v.2.im := by linarith
    have hre : ((px - 100 : Nat) : ℚ) * (v.2.re - v.1.re) / (bounds.1 : ℚ)
        < ((px + 100 : Nat) : ℚ) * (v.2.re - v.1.re) / (bounds.1 : ℚ) :=
      (div_lt_div_iff_of_pos_right hWQ).mpr (mul_lt_mul_of_pos_right hxc hw)
    have him : ((py - 100 : Nat) : ℚ) * (v.1.im - v.2.im) / (bounds.2 : ℚ)
        < ((py + 100 : Nat) : ℚ) * (v.1.im - v.2.im) / (bounds.2 : ℚ) :=
      (div_lt_div_iff_of_pos_right hHQ).mpr (mul_lt_mul_of_pos_right hyc hh)
    constructor <;>
      · simp only [applyV, zoomIn, pixel_to_point]
        linarith

/-- C8 (witness): the invariant instantiated at the initial state and a
concrete ZoomIn in the 800×800 window. -/
theorem oriented_invariant_witness :
    oriented initView ∧ oriented (applyV (800, 800) (VCmd.zoomIn 400 400) initView) :=
  oriented_invariant (800, 800) (VCmd.zoomIn 400 400) initView
    (by norm_num) (by norm_num) (by norm_num [oriented, initView])

/-! ### C9: ZoomIn/ZoomOut round trip -/

/-- C9 (counterexample): from the initial view in the 800×800 window, ZoomIn
at pixel `(400, 400)` followed by ZoomOut yields width `3` where the prior
width was `4` — an exact 25% shrink, far outside floating-point tolerance,
so the round trip does not approximately restore the prior extent. -/
theorem zoom_roundtrip_cex :
    (applyV (800, 800) VCmd.zoomOut
        (applyV (800, 800) (VCmd.zoomIn 400 400) initView)).2.re -
      (applyV (800, 800) VCmd.zoomOut
        (applyV (800, 800) (VCmd.zoomIn 400 400) initView)).1.re = 3 ∧
    initView.2.re - initView.1.re = 4 ∧
    ¬ ((applyV (800, 800) VCmd.zoomOut
        (applyV (800, 800) (VCmd.zoomIn 400 400) initView)).2.re -
      (applyV (800, 800) VCmd.zoomOut
        (applyV (800, 800) (VCmd.zoomIn 400 400) initView)).1.re
        = initView.2.re - initView.1.re) := by
  norm_num [applyV, zoomIn, zoomOut, initView, pixel_to_point,
    Cplx.add_def, Cplx.sub_def]

/-- C9 (amended): in the 800×800 window, ZoomIn at any pixel with both
coordinates `≥ 100` followed by ZoomOut scales the view's width and height by
exactly `3/4` of their prior values (shrink by a quarter), rather than
restoring them. -/
theorem zoom_roundtrip_scale (v : View) (px py : Nat)
    (hpx : 100 ≤ px) (hpy : 100 ≤ py) :
    (applyV (800, 800) VCmd.zoomOut
        (applyV (800, 800) (VCmd.zoomIn px py) v)).2.re -
      (applyV (800, 800) VCmd.zoomOut
        (applyV (800, 800) (VCmd.zoomIn px py) v)).1.re
      = 3 / 4 * (v.2.re - v.1.re) ∧
    (applyV (800, 800) VCmd.zoomOut
        (applyV (800, 800) (VCmd.zoomIn px py) v)).1.im -
      (applyV (800, 800) VCmd.zoomOut
        (applyV (800, 800) (VCmd.zoomIn px py) v)).2.im
      = 3 / 4 * (v.1.im - v.2.im) := by
  obtain ⟨a, rfl⟩ := Nat.exists_eq_add_of_le hpx
  obtain ⟨b, rfl⟩ := Nat.exists_eq_add_of_le hpy
  simp only [applyV, zoomIn, zoomOut, pixel_to_point, Cplx.add_def, Cplx.sub_def,
    Nat.add_sub_cancel_left]
  push_cast
  constructor <;> ring

/-- C9 (witness for the amended claim): the `3/4` scaling at the initial view
and center pixel `(400, 400)`. -/
theorem zoom_roundtrip_scale_witness :
    (applyV (800, 800) VCmd.zoomOut
        (applyV (800, 800) (VCmd.zoomIn 400 400) initView)).2.re -
      (applyV (800, 800) VCmd.zoomOut
        (applyV (800, 800) (VCmd.zoomIn 400 400) initView)).1.re
      = 3 / 4 * (initView.2.re - initView.1.re) ∧
    (applyV (800, 800) VCmd.zoomOut
        (applyV (800, 800) (VCmd.zoomIn 400 400) initView)).1.im -
      (applyV (800, 800) VCmd.zoomOut
        (applyV (800, 800) (VCmd.zoomIn 400 400) initView)).2.im
      = 3 / 4 * (initView.1.im - initView.2.im) :=
  zoom_roundtrip_scale initView 400 400 (by norm_num) (by norm_num)

/-! ### C5: color mapping -/

theorem hsvToRgb_value_zero (h s : ℚ) : hsvToRgb h s 0 = (0, 0, 0) := by
  unfold hsvToRgb
  simp only [zero_mul, mul_comm, mul_zero, zero_sub, sub_zero, zero_add, add_zero, sub_self]
  split_ifs <;> norm_num

/-- C5: a bounded point gets HSV value `0`, hence black RGB and bytes
`[0,0,0,255]`; an escaped point gets HSV saturation `1` and value `1`
(never the inside sentinel `0`); and the alpha byte is always `255`. -/
theorem render_color_spec (limit : Nat) (p : Cplx) :
    (escape_time p limit = none →
      (pixelHsv limit p).2.2 = 0 ∧ pixelColor limit p = (0, 0, 0) ∧
        pixelBytes limit p = [0, 0, 0, 255]) ∧
    (∀ i, escape_time p limit = some i →
      (pixelHsv limit p).2.1 = 1 ∧ (pixelHsv limit p).2.2 = 1) ∧
    (pixelBytes limit p)[3]? = some 255 := by
  refine ⟨fun hnone => ?_, fun i hsome => ?_, rfl⟩
  · have hval : pixelVal limit p = 0 := by simp [pixelVal, hnone]
    have hv : (pixelHsv limit p).2.2 = 0 := by simp [pixelHsv, hval]
    have hc : pixelColor limit p = (0, 0, 0) := by
      unfold pixelColor
      rw [hv, hsvToRgb_value_zero]
    refine ⟨hv, hc, ?_⟩
    simp [pixelBytes, hc, toByte]
  · have hlt : i < limit := escape_time_lt p limit i hsome
    have hval : pixelVal limit p = limit - i := by simp [pixelVal, hsome]
    have hne : pixelVal limit p ≠ 0 := by omega
    constructor
    · rfl
    · simp [pixelHsv, hne]

/-- C5 (witness): the origin is bounded for limit `1`, so its pixel is the
black sentinel `[0,0,0,255]`. -/
theorem render_color_spec_witness :
    pixelBytes 1 ⟨0, 0⟩ = [0, 0, 0, 255] :=
  ((render_color_spec 1 ⟨0, 0⟩).1
    (by norm_num [escape_time, escapeGo, Cplx.normSq, Cplx.mul_def, Cplx.add_def])).2.2

/-! ### Structural lemmas: `render` on an exactly-sized buffer -/

theorem set_append_cons (P : List Nat) (x v : Nat) (R : List Nat) :
    (P ++ x :: R).set P.length v = P ++ v :: R := by
  induction P with
  | nil => rfl
  | cons a as ih => simp [List.set, ih]

theorem writeByte_append (P : List Nat) (x v : Nat) (R : List Nat) :
    writeByte (P ++ x :: R) P.length v = some (P ++ v :: R) := by
  unfold writeByte
  rw [if_pos (by simp), set_append_cons]

theorem pixelBytes_length (limit : Nat) (p : Cplx) :
    (pixelBytes limit p).length = 4 := by
  simp [pixelBytes]

theorem renderPixel_eq (limit : Nat) (bounds : Nat × Nat) (ul lr : Cplx)
    (row col : Nat) (P R : List Nat) (b0 b1 b2 b3 : Nat)
    (hP : P.length = 4 * (row * bounds.1 + col)) :
    renderPixel limit bounds ul lr row col (P ++ b0 :: b1 :: b2 :: b3 :: R)
      = some (P ++ pixelBytes limit (pixel_to_point bounds (col, row) ul lr) ++ R) := by
  simp only [renderPixel, pixelBytes]
  rw [← hP]
  rw [writeByte_append]
  simp only [Option.bind_eq_bind, Option.some_bind]
  rw [show P ++ toByte (pixelColor limit (pixel_to_point bounds (col, row) ul lr)).1 ::
        b1 :: b2 :: b3 :: R
      = (P ++ [toByte (pixelColor limit (pixel_to_point bounds (col, row) ul lr)).1]) ++
        b1 :: b2 :: b3 :: R by simp,
    show P.length + 1
      = (P ++ [toByte (pixelColor limit (pixel_to_point bounds (col, row) ul lr)).1]).length
      by simp]
  rw [writeByte_append]
  simp only [Option.bind_eq_bind, Option.some_bind]
  rw [show (P ++ [toByte (pixelColor limit (pixel_to_point bounds (col, row) ul lr)).1]) ++
        toByte (pixelColor limit (pixel_to_point bounds (col, row) ul lr)).2.1 ::
          b2 :: b3 :: R
      = (P ++ [toByte (pixelColor limit (pixel_to_point bounds (col, row) ul lr)).1,
          toByte (pixelColor limit (pixel_to_point bounds (col, row) ul lr)).2.1]) ++
        b2 :: b3 :: R by simp,
    show P.length + 2
      = (P ++ [toByte (pixelColor limit (pixel_to_point bounds (col, row) ul lr)).1,
          toByte (pixelColor limit (pixel_to_point bounds (col, row) ul lr)).2.1]).length
      by simp]
  rw [writeByte_append]
  simp only [Option.bind_eq_bind, Option.some_bind]
  rw [show (P ++ [toByte (pixelColor limit (pixel_to_point bounds (col, row) ul lr)).1,
          toByte (pixelColor limit (pixel_to_point bounds (col, row) ul lr)).2.1]) ++
        toByte (pixelColor limit (pixel_to_point bounds (col, row) ul lr)).2.2 ::
          b3 :: R
      = (P ++ [toByte (pixelColor limit (pixel_to_point bounds (col, row) ul lr)).1,
          toByte (pixelColor limit (pixel_to_point bounds (col, row) ul lr)).2.1,
          toByte (pixelColor limit (pixel_to_point bounds (col, row) ul lr)).2.2]) ++
        b3 :: R by simp,
    show P.length + 3
      = (P ++ [toByte (pixelColor limit (pixel_to_point bounds (col, row) ul lr)).1,
          toByte (pixelColor limit (pixel_to_point bounds (col, row) ul lr)).2.1,
          toByte (pixelColor limit (pixel_to_point bounds (col, row) ul lr)).2.2]).length
      by simp]
  rw [writeByte_append]
  simp

theorem renderCols_eq (limit : Nat) (bounds : Nat × Nat) (ul lr : Cplx) (row : Nat) :
    ∀ (n c : Nat) (P Q R : List Nat), P.length = 4 * (row * bounds.1 + c) →
      Q.length = 4 * n →
      renderCols limit bounds ul lr row (List.range' c n) (P ++ Q ++ R)
        = some (P ++ ((List.range' c n).flatMap fun col =>
            pixelBytes limit (pixel_to_point bounds (col, row) ul lr)) ++ R) := by
  intro n
  induction n with
  | zero =>
    intro c P Q R hP hQ
    have hQ0 : Q = [] := List.eq_nil_of_length_eq_zero (by omega)
    subst hQ0
    simp [renderCols]
  | succ m ih =>
    intro c P Q R hP hQ
    match Q, hQ with
    | b0 :: b1 :: b2 :: b3 :: Q', hQ =>
      rw [List.range'_succ]
      simp only [renderCols, Option.bind_eq_bind]
      rw [show P ++ (b0 :: b1 :: b2 :: b3 :: Q') ++ R
            = P ++ b0 :: b1 :: b2 :: b3 :: (Q' ++ R) by simp]
      rw [renderPixel_eq limit bounds ul lr row c P (Q' ++ R) b0 b1 b2 b3 hP]
      simp only [Option.some_bind]
      rw [show P ++ pixelBytes limit (pixel_to_point bounds (c, row) ul lr) ++ (Q' ++ R)
            = (P ++ pixelBytes limit (pixel_to_point bounds (c, row) ul lr)) ++ Q' ++ R
          by simp]
      rw [ih (c + 1) _ Q' R (by simp [pixelBytes_length]; omega) (by simp at hQ; omega)]
      simp [List.flatMap_cons]

theorem flatMap_pixelBytes_length (limit : Nat) (bounds : Nat × Nat) (ul lr : Cplx)
    (row : Nat) (l : List Nat) :
    ((l.flatMap fun col =>
        pixelBytes limit (pixel_to_point bounds (col, row) ul lr)).length)
      = 4 * l.length := by
  induction l with
  | nil => simp
  | cons a as ih => simp [ih, pixelBytes_length]; ring

theorem rowBytes_length (limit : Nat) (bounds : Nat × Nat) (ul lr : Cplx) (row : Nat) :
    (rowBytes limit bounds ul lr row).length = 4 * bounds.1 := by
  unfold rowBytes
  rw [flatMap_pixelBytes_length]
  simp

theorem renderRows_eq (limit : Nat) (bounds : Nat × Nat) (ul lr : Cplx) :
    ∀ (m r : Nat) (P Q R : List Nat), P.length = 4 * (r * bounds.1) →
      Q.length = 4 * (m * bounds.1) →
      renderRows limit bounds ul lr (List.range' r m) (P ++ Q ++ R)
        = some (P ++ (List.range' r m).flatMap (rowBytes limit bounds ul lr) ++ R) := by
  intro m
  induction m with
  | zero =>
    intro r P Q R hP hQ
    have hQ0 : Q = [] := List.eq_nil_of_length_eq_zero (by simpa using hQ)
    subst hQ0
    simp [renderRows]
  | succ k ih =>
    intro r P Q R hP hQ
    have hQlen : Q.length = 4 * bounds.1 + 4 * (k * bounds.1) := by
      rw [hQ, Nat.succ_mul]; ring
    have hlen1 : (Q.take (4 * bounds.1)).length = 4 * bounds.1 := by
      rw [List.length_take]; omega
    have hlen2 : (Q.drop (4 * bounds.1)).length = 4 * (k * bounds.1) := by
      rw [List.length_drop]; omega
    rw [List.range'_succ]
    simp only [renderRows, Option.bind_eq_bind]
    rw [List.range_eq_range']
    rw [show P ++ Q ++ R = P ++ Q.take (4 * bounds.1) ++ (Q.drop (4 * bounds.1) ++ R) by
      simp only [List.append_assoc]
      rw [← List.append_assoc (Q.take (4 * bounds.1)), List.take_append_drop]]
    rw [renderCols_eq limit bounds ul lr r bounds.1 0 P (Q.take (4 * bounds.1))
      (Q.drop (4 * bounds.1) ++ R) (by omega) hlen1]
    simp only [Option.some_bind]
    rw [show P ++ ((List.range' 0 bounds.1).flatMap fun col =>
          pixelBytes limit (pixel_to_point bounds (col, r) ul lr)) ++
            (Q.drop (4 * bounds.1) ++ R)
        = (P ++ ((List.range' 0 bounds.1).flatMap fun col =>
            pixelBytes limit (pixel_to_point bounds (col, r) ul lr))) ++
              Q.drop (4 * bounds.1) ++ R by simp]
    rw [ih (r + 1) _ (Q.drop (4 * bounds.1)) R
      (by
        rw [List.length_append, hP, flatMap_pixelBytes_length, List.length_range',
          Nat.succ_mul]
        ring) hlen2]
    simp only [List.flatMap_cons]
    rw [show rowBytes limit bounds ul lr r
        = (List.range' 0 bounds.1).flatMap fun col =>
            pixelBytes limit (pixel_to_point bounds (col, r) ul lr) by
      unfold rowBytes; rw [List.range_eq_range']]
    simp

theorem render_eq_renderGen (limit : Nat) (bounds : Nat × Nat) (ul lr : Cplx)
    (buf : List Nat) (h : buf.length = 4 * (bounds.1 * bounds.2)) :
    render limit buf bounds ul lr = some (renderGen limit bounds ul lr) := by
  have := renderRows_eq limit bounds ul lr bounds.2 0 [] buf []
    (by simp) (by rw [h]; ring)
  simpa [render, renderGen, List.range_eq_range'] using this

/-! ### C10: render never writes out of bounds -/

/-- C10: on a buffer of length exactly `4 * width * height`, every store in
`render` hits an index below the buffer length, so the out-of-bounds (panic)
branch is unreachable and `render` returns a buffer. -/
theorem render_in_bounds (limit : Nat) (bounds : Nat × Nat) (ul lr : Cplx)
    (buf : List Nat) (h : buf.length = 4 * (bounds.1 * bounds.2)) :
    ∃ out, render limit buf bounds ul lr = some out :=
  ⟨renderGen limit bounds ul lr, render_eq_renderGen limit bounds ul lr buf h⟩

/-- C10 (witness): a 1×1 render on a 4-byte buffer succeeds. -/
theorem render_in_bounds_witness :
    ∃ out, render 1 (List.replicate 4 0) (1, 1) ⟨-1, 1⟩ ⟨1, -1⟩ = some out :=
  render_in_bounds 1 (1, 1) ⟨-1, 1⟩ ⟨1, -1⟩ (List.replicate 4 0) (by simp)

/-! ### C1: banded rendering equals one sequential render -/

theorem band_pixel_eq (bounds : Nat × Nat) (ul lr : Cplx) (hW : 1 ≤ bounds.1)
    (c i : Nat) :
    pixel_to_point (bounds.1, 1) (c, 0)
        (pixel_to_point bounds (0, i) ul lr)
        (pixel_to_point bounds (bounds.1, i + 1) ul lr)
      = pixel_to_point bounds (c, i) ul lr := by
  have hW' : (bounds.1 : ℚ) ≠ 0 := Nat.cast_ne_zero.mpr (by omega)
  simp only [pixel_to_point, Cplx.mk.injEq]
  constructor
  · field_simp
  · norm_num


theorem flatMap_congr_fun {α β : Type} (f g : α → List β) (h : ∀ c, f c = g c) :
    ∀ l : List α, l.flatMap f = l.flatMap g := by
  intro l
  induction l with
  | nil => rfl
  | cons a as ihl => rw [List.flatMap_cons, List.flatMap_cons, ihl, h a]

theorem band_render_eq (limit : Nat) (bounds : Nat × Nat) (ul lr : Cplx)
    (hW : 1 ≤ bounds.1) (i : Nat) :
    render limit (List.replicate (4 * bounds.1) 0) (bounds.1, 1)
        (pixel_to_point bounds (0, i) ul lr)
        (pixel_to_point bounds (bounds.1, i + 1) ul lr)
      = some (rowBytes limit bounds ul lr i) := by
  rw [render_eq_renderGen limit (bounds.1, 1) _ _ _ (by simp)]
  have hgen : renderGen limit (bounds.1, 1)
      (pixel_to_point bounds (0, i) ul lr)
      (pixel_to_point bounds (bounds.1, i + 1) ul lr)
      = rowBytes limit bounds ul lr i := by
    simp only [renderGen, rowBytes]
    rw [show List.range 1 = [0] from rfl]
    simp only [List.flatMap_cons, List.flatMap_nil, List.append_nil]
    exact flatMap_congr_fun _ _
      (fun c => congrArg (pixelBytes limit) (band_pixel_eq bounds ul lr hW c i))
      (List.range bounds.1)
  rw [hgen]

theorem renderBands_eq (limit : Nat) (bounds : Nat × Nat) (ul lr : Cplx)
    (hW : 1 ≤ bounds.1) :
    ∀ rows : List Nat, renderBands limit bounds ul lr rows
      = some (rows.flatMap (rowBytes limit bounds ul lr)) := by
  intro rows
  induction rows with
  | nil => simp [renderBands]
  | cons i is ih =>
    simp only [renderBands, Option.bind_eq_bind]
    rw [band_render_eq limit bounds ul lr hW i]
    simp only [Option.some_bind]
    rw [ih]
    simp only [Option.some_bind, List.flatMap_cons]

/-- C1: for any iteration budget, view rectangle and positive-width bounds,
the band-partitioned pass of `draw_image` (one band per pixel row, corner
points recomputed per band) produces a pixel buffer byte-identical to a
single sequential `render` call over the full bounds. -/
theorem draw_image_eq_render (limit : Nat) (bounds : Nat × Nat) (ul lr : Cplx)
    (hW : 1 ≤ bounds.1) :
    draw_image limit bounds ul lr
      = render limit (List.replicate (4 * (bounds.1 * bounds.2)) 0) bounds ul lr := by
  rw [draw_image, renderBands_eq limit bounds ul lr hW,
    render_eq_renderGen limit bounds ul lr _ (by simp), renderGen]

/-- C1 (witness): the equivalence instantiated at a 1×1 image. -/
theorem draw_image_eq_render_witness :
    draw_image 1 (1, 1) ⟨-1, 1⟩ ⟨1, -1⟩
      = render 1 (List.replicate (4 * (1 * 1)) 0) (1, 1) ⟨-1, 1⟩ ⟨1, -1⟩ :=
  draw_image_eq_render 1 (1, 1) ⟨-1, 1⟩ ⟨1, -1⟩ (by norm_num)
